import Mathlib

/-!
Verification development for the pdfbeaver instruction-stream editing and
optimization engine.  The Python modules `optimization.py`, `editor.py`,
`registry.py`, `state_iterator.py`, `api.py` and `utils/pdf_geometry.py` are
shallowly embedded: Python floats and exact decimals are modelled as rationals,
Python exceptions as an explicit error monad, and mutable state as explicit
state passing.
-/

set_option maxHeartbeats 1000000
set_option maxRecDepth 4000

/- The Batteries rational-number arithmetic is marked irreducible, which
blocks `decide` on concrete optimizer runs; restore the default
reducibility for this development. -/
attribute [local semireducible] Rat.add Rat.mul Rat.inv Rat.sub Rat.ofScientific

namespace PdfBeaver

/-- Python exception kinds relevant to the numeric-conversion paths
(`CONVERSION_ERRORS = (ValueError, IndexError, TypeError, OverflowError)`). -/
inductive PExc
  | valueError
  | indexError
  | typeError
  | overflowError
deriving DecidableEq, Repr

/-- Operand values as they reach the optimizer / editor: Python ints
(arbitrary precision), floats (modelled as rationals), pikepdf names,
byte strings, and embedded binary sub-stream references (PDFStream).
Booleans behave as the ints 0/1 and are folded into `int`. -/
inductive PVal
  | int (n : ℤ)
  | flt (q : ℚ)
  | name (s : String)
  | pstr (s : String)
  | stream
deriving DecidableEq, Repr

/-- A buffered instruction: `(operands, operator)` with the operator held by
its tag string (Python compares via `str(operator)`). -/
abbrev Instr := List PVal × String

instance {ε α : Type} [DecidableEq ε] [DecidableEq α] :
    DecidableEq (Except ε α)
  | .ok x, .ok y =>
    if h : x = y then .isTrue (congrArg Except.ok h)
    else .isFalse (fun hc => h (Except.ok.inj hc))
  | .error e, .error f =>
    if h : e = f then .isTrue (congrArg Except.error h)
    else .isFalse (fun hc => h (Except.error.inj hc))
  | .ok _, .error _ => .isFalse (fun hc => Except.noConfusion hc)
  | .error _, .ok _ => .isFalse (fun hc => Except.noConfusion hc)

/-- Python's built-in `abs` on a number (written explicitly so that every
tolerance comparison is kernel-computable). -/
def qabs (x : ℚ) : ℚ := if x < 0 then -x else x

/-- Python's built-in `max` on two numbers. -/
def qmax (a b : ℚ) : ℚ := if a ≤ b then b else a

/-- Python's built-in `min` on two numbers. -/
def qmin (a b : ℚ) : ℚ := if a ≤ b then a else b

/-- `float(x)` for an operand.  `float` of an int raises OverflowError once the
value cannot be represented in a 64-bit float; the exact cutoff is the binary
float range, modelled as `2 ^ 1024`.  `float` of a name, byte string or stream
object raises TypeError. -/
def pyFloat : PVal → Except PExc ℚ
  | .int n =>
    if n < Int.ofNat (2 ^ 1024) ∧ -Int.ofNat (2 ^ 1024) < n then .ok (n : ℚ)
    else .error .overflowError
  | .flt q => .ok q
  | .name _ => .error .typeError
  | .pstr _ => .error .typeError
  | .stream => .error .typeError

/-- `str(x)` for an operand (total; only its equality behaviour matters). -/
def pyStr : PVal → String
  | .int n => toString n
  | .flt q => toString q
  | .name s => s
  | .pstr s => s
  | .stream => "stream"

/-- `l[i]` on a Python list: IndexError when out of range. -/
def getAt (l : List PVal) (i : ℕ) : Except PExc PVal :=
  match l.get? i with
  | some v => .ok v
  | none => .error .indexError

/-- `float(l[i])`. -/
def pyFloatAt (l : List PVal) (i : ℕ) : Except PExc ℚ := do
  pyFloat (← getAt l i)

/-- `l[i]` on a list of already-converted floats. -/
def qAt (l : List ℚ) (i : ℕ) : Except PExc ℚ :=
  match l.get? i with
  | some v => .ok v
  | none => .error .indexError

/-- `[float(x) for x in operands]`: sequential, first failure wins. -/
def floatList : List PVal → Except PExc (List ℚ)
  | [] => .ok []
  | v :: t => do
    let q ← pyFloat v
    let r ← floatList t
    pure (q :: r)

/-- Round-half-to-even of a rational to an integer (Python `round` on floats,
under the rationals-for-floats abstraction). -/
def round_half_even (x : ℚ) : ℤ :=
  let fl := ⌊x⌋
  let frac := x - fl
  if frac < 1 / 2 then fl
  else if 1 / 2 < frac then fl + 1
  else if fl % 2 = 0 then fl else fl + 1

/-- Python `round(x, places)`. -/
def py_round (x : ℚ) (places : ℕ) : ℚ :=
  (round_half_even (x * (10 : ℚ) ^ places) : ℚ) / (10 : ℚ) ^ places

/-! ## optimization.py -/

def TZ_TOL : ℚ := 1 / 1000
def TF_TOL : ℚ := 1 / 1000
def TM_TOL : ℚ := 1 / 10000
def ROUNDING_PLACES : ℕ := 4

/-- `OptimizerState`: graphics state tracked during the forward pass
(the unused `simple_states` dictionary is omitted). -/
structure OptimizerState where
  current_tz : ℚ := 100
  current_tf_name : Option String := none
  current_tf_size : Option ℚ := none
  current_tm : Option (List ℚ) := none
deriving DecidableEq, Repr

instance : Inhabited OptimizerState := ⟨{}⟩

/-- The show-text barrier operators `["Tj", "TJ", "'", '"']`. -/
def showTextOps : List String := ["Tj", "TJ", "\x27", "\x22"]

/-- `_is_dead_store`. -/
def is_dead_store (op_name : String) (future_overwrites : Finset String) : Bool :=
  if op_name = "Tm" then decide ("Tm" ∈ future_overwrites)
  else if op_name = "Td" then decide ("Tm" ∈ future_overwrites)
  else if op_name = "Tz" then decide ("Tz" ∈ future_overwrites)
  else if op_name = "Tf" then decide ("Tf" ∈ future_overwrites)
  else false

/-- `_update_overwrites`. -/
def update_overwrites (op_name : String) (future_overwrites : Finset String) :
    Finset String :=
  if op_name = "Tm" then insert "Td" (insert "Tm" future_overwrites)
  else if op_name = "Tz" then insert "Tz" future_overwrites
  else if op_name = "Tf" then insert "Tf" future_overwrites
  else future_overwrites

/-- The reverse scan of `_remove_dead_stores`: processes the reversed
instruction list front to back, returning the kept instructions in scan order
(Python's `rev_optimized`) together with the final overwrite set. -/
def scan : List Instr → Finset String → List Instr × Finset String
  | [], fo => ([], fo)
  | inst :: rest, fo =>
    if inst.2 ∈ showTextOps then
      let r := scan rest ∅
      (inst :: r.1, r.2)
    else if is_dead_store inst.2 fo then
      scan rest fo
    else
      let r := scan rest (update_overwrites inst.2 fo)
      (inst :: r.1, r.2)

/-- `_remove_dead_stores`: backward pass over the buffered instructions. -/
def remove_dead_stores (ops : List Instr) : List Instr :=
  (scan ops.reverse ∅).1.reverse

/-- `_handle_tz` (the whole body sits in a `try/except CONVERSION_ERRORS`). -/
def handle_tz (operands : List PVal) (operator : String) (st : OptimizerState) :
    Option Instr × OptimizerState :=
  match pyFloatAt operands 0 with
  | .ok new_tz =>
    if qabs (new_tz - st.current_tz) < TZ_TOL then (none, st)
    else (some (operands, operator), { st with current_tz := new_tz })
  | .error _ => (some (operands, operator), st)

/-- The redundancy test of `_handle_tf`:
`new_name == state.current_tf_name and state.current_tf_size is not None and
abs(new_size - state.current_tf_size) < TF_TOL`. -/
def redundantTf (st : OptimizerState) (new_name : String) (new_size : ℚ) : Bool :=
  match st.current_tf_name, st.current_tf_size with
  | some nm, some sz =>
    decide (nm = new_name) && decide (qabs (new_size - sz) < TF_TOL)
  | _, _ => false

/-- `new_name = str(operands[0]); new_size = float(operands[1])`. -/
def tf_parse (operands : List PVal) : Except PExc (String × ℚ) := do
  let v0 ← getAt operands 0
  let v1 ← getAt operands 1
  let new_size ← pyFloat v1
  pure (pyStr v0, new_size)

/-- `_handle_tf`.  Note that the source catches only
`(ValueError, IndexError, TypeError)` here: an OverflowError from
`float(operands[1])` propagates out of the optimizer. -/
def handle_tf (operands : List PVal) (operator : String) (st : OptimizerState) :
    Except PExc (Option Instr × OptimizerState) :=
  match tf_parse operands with
  | .ok (new_name, new_size) =>
    if redundantTf st new_name new_size then .ok (none, st)
    else .ok (some (operands, operator),
      { st with current_tf_name := some new_name, current_tf_size := some new_size })
  | .error e => if e = .overflowError then .error e
      else .ok (some (operands, operator), st)

/-- One index comparison of `_try_optimize_tm`'s `matches_geometry` generator. -/
def matches_geometry_check (new_tm cur : List ℚ) (i : ℕ) : Except PExc Bool := do
  let x ← qAt new_tm i
  let y ← qAt cur i
  pure (qabs (x - y) < TM_TOL)

/-- `all(abs(new_tm[i] - current_tm[i]) < TM_TOL for i in range(4))`,
with the generator's short-circuit evaluation order. -/
def matches_geometry (new_tm cur : List ℚ) : Except PExc Bool := do
  if (← matches_geometry_check new_tm cur 0) then
    if (← matches_geometry_check new_tm cur 1) then
      if (← matches_geometry_check new_tm cur 2) then
        matches_geometry_check new_tm cur 3
      else pure false
    else pure false
  else pure false

/-- The `try` body of `_try_optimize_tm`. -/
def tm_try_body (operands : List PVal) (cur : List ℚ) :
    Except PExc (Option Instr) := do
  let new_tm ← floatList operands
  let mg ← matches_geometry new_tm cur
  if mg then
    let a ← qAt cur 0
    let b ← qAt cur 1
    let c ← qAt cur 2
    let d ← qAt cur 3
    let e_old ← qAt cur 4
    let f_old ← qAt cur 5
    let e_new ← qAt new_tm 4
    let f_new ← qAt new_tm 5
    if qmax (qabs b) (qabs c) < TM_TOL ∧ TM_TOL < qmin (qabs a) (qabs d) then
      pure (some ([PVal.flt (py_round ((e_new - e_old) / a) ROUNDING_PLACES),
                   PVal.flt (py_round ((f_new - f_old) / d) ROUNDING_PLACES)],
                  "Td"))
    else pure none
  else pure none

/-- `_try_optimize_tm`: attempts to convert an absolute Tm to a relative Td. -/
def try_optimize_tm (operands : List PVal) (current_tm : Option (List ℚ)) :
    Option Instr :=
  match current_tm with
  | none => none
  | some cur =>
    match tm_try_body operands cur with
    | .ok r => r
    | .error _ => none

/-- `_handle_tm`: always updates the tracked matrix to the new absolute values
(`None` on conversion failure), and emits the Td conversion when available. -/
def handle_tm (operands : List PVal) (operator : String) (st : OptimizerState) :
    Option Instr × OptimizerState :=
  let optimized_op := try_optimize_tm operands st.current_tm
  let st2 := { st with current_tm :=
      (match floatList operands with
       | .ok l => some l
       | .error _ => none) }
  match optimized_op with
  | some op2 => (some op2, st2)
  | none => (some (operands, operator), st2)

/-- The `try` body of `_handle_td`: `tx, ty = float(operands[0]),
float(operands[1])`, unpack `a, b, c, d` from the tracked matrix, then
`current_tm[4] += tx*a + ty*c; current_tm[5] += tx*b + ty*d`. -/
def td_update (operands : List PVal) (cur : List ℚ) : Except PExc (List ℚ) := do
  let tx ← pyFloatAt operands 0
  let ty ← pyFloatAt operands 1
  let a ← qAt cur 0
  let b ← qAt cur 1
  let c ← qAt cur 2
  let d ← qAt cur 3
  let e ← qAt cur 4
  let f ← qAt cur 5
  pure ((cur.set 4 (e + (tx * a + ty * c))).set 5 (f + (tx * b + ty * d)))

/-- `_handle_td`: analytically advances the tracked matrix translation. -/
def handle_td (operands : List PVal) (operator : String) (st : OptimizerState) :
    Option Instr × OptimizerState :=
  match st.current_tm with
  | none => (some (operands, operator), st)
  | some cur =>
    match td_update operands cur with
    | .ok cur2 => (some (operands, operator), { st with current_tm := some cur2 })
    | .error _ => (some (operands, operator), { st with current_tm := none })

/-- One iteration of `_consolidate_redundant_ops`' dispatch. -/
def consolidate_step (operands : List PVal) (operator : String)
    (st : OptimizerState) : Except PExc (Option Instr × OptimizerState) :=
  if operator = "Tz" then .ok (handle_tz operands operator st)
  else if operator = "Tf" then handle_tf operands operator st
  else if operator = "Tm" then .ok (handle_tm operands operator st)
  else if operator = "Td" then .ok (handle_td operands operator st)
  else if operator = "BT" then .ok (some (operands, operator), { st with current_tm := none })
  else .ok (some (operands, operator), st)

/-- The forward loop of `_consolidate_redundant_ops` (an uncaught exception
in a step aborts the batch, otherwise kept results are accumulated in
order). -/
def consolidate_aux : List Instr → OptimizerState → Except PExc (List Instr)
  | [], _ => .ok []
  | inst :: rest, st =>
    match consolidate_step inst.1 inst.2 st with
    | .error e => .error e
    | .ok (result, st2) =>
      match consolidate_aux rest st2 with
      | .error e => .error e
      | .ok tail =>
        match result with
        | some r => .ok (r :: tail)
        | none => .ok tail

/-- `_consolidate_redundant_ops`: forward pass with a fresh `OptimizerState`. -/
def consolidate_redundant_ops (ops : List Instr) : Except PExc (List Instr) :=
  consolidate_aux ops {}

/-- `optimize_ops`: the two-pass peephole optimizer.  An uncaught Python
exception is an `.error` result. -/
def optimize_ops (ops : List Instr) : Except PExc (List Instr) :=
  if ops = [] then .ok []
  else consolidate_redundant_ops (remove_dead_stores ops)

/-- `optimize_ops.relevant_operators`. -/
def relevantOperators : List String :=
  ["Tm", "Td", "TD", "q", "Q", "cm", "BT", "ET", "Tf", "Tz"]

/-! ## editor.py -/

/-- Raw stream bytes, one natural number per byte. -/
abbrev ByteStr := List ℕ

/-- An item of a handler's (registry-normalized) return list, as consumed by
`_buffer_modified_op`: the `ORIGINAL_BYTES` sentinel, a normalized
`(operands, operator)` instruction, or raw bytes for direct injection.
(The flexible user-return shapes of `_normalize_instruction` are already
reduced to this tagged form.) -/
inductive HItem
  | original
  | instr (i : Instr)
  | bytes (b : ByteStr)
deriving DecidableEq, Repr

/-- The Stream Editor's mutable output state: the pending instruction buffer
and the emitted byte chunks (`b"".join` of which is the final stream). -/
structure EditorState where
  pending : List Instr
  chunks : List ByteStr
deriving DecidableEq, Repr

/-- Editor construction parameters: the handler's `modified_operators`, the
optional optimizer (a total rewrite of the buffered instructions), the
external serializer (`pikepdf.unparse_content_stream`), and the handler's
`handle_operator` entry point. -/
structure EditorCfg where
  handlerOps : List String
  optimizer : Option (List Instr → List Instr)
  serialize : List Instr → ByteStr
  handler : String → List PVal → ByteStr → Option (List HItem)

/-- `self.intercept_list`: handler operators, plus the optimizer's
`relevant_operators` when an optimizer is configured. -/
def interceptList (cfg : EditorCfg) : List String :=
  cfg.handlerOps ++ (if cfg.optimizer.isSome then relevantOperators else [])

/-- The safety bound `1152921504606846976` of `_is_safe_to_optimize`. -/
def SAFE_INT_BOUND : ℤ := 1152921504606846976

/-- `_is_safe_to_optimize`: only `int` operands are range-checked, and
`PDFStream` operands make the instruction opaque. -/
def is_safe_to_optimize (op : String) (operands : List PVal)
    (intercept_list : List String) : Bool :=
  if op ∉ intercept_list then false
  else if operands.any (fun arg =>
      match arg with
      | .int n => decide (n > SAFE_INT_BOUND ∨ n < -SAFE_INT_BOUND)
      | _ => false) then false
  else if operands.any (fun arg =>
      match arg with
      | .stream => true
      | _ => false) then false
  else true

/-- The stream-grammar whitespace bytes `b"\x00\t\n\x0c\r "`. -/
def isPdfWhitespace (b : ℕ) : Bool :=
  b = 0 ∨ b = 9 ∨ b = 10 ∨ b = 12 ∨ b = 13 ∨ b = 32

/-- `_append_chunk`: appends a chunk, inserting a single `b"\n"` separator
when neither adjacent byte is already whitespace (`chunks[-1]` is modelled
by `getLastD` under the `chunks ≠ []` guard). -/
def append_chunk (chunks : List ByteStr) (chunk : ByteStr) : List ByteStr :=
  if chunk = [] then chunks
  else if chunks = [] then chunks ++ [chunk]
  else
    let last := chunks.getLastD []
    if ¬ (last ≠ [] ∧ isPdfWhitespace (last.getLastD 0)) ∧
       ¬ (isPdfWhitespace (chunk.headD 0)) then
      chunks ++ [[10], chunk]
    else chunks ++ [chunk]

/-- `_flush_pending`: optimize (or pass through) the pending buffer, serialize
it, and append the produced chunk.  The pending buffer holds structured
instructions only, so the source's `bytes`/sentinel filter is the identity. -/
def flush_pending (cfg : EditorCfg) (st : EditorState) : EditorState :=
  if st.pending = [] then st
  else
    let optimized :=
      match cfg.optimizer with
      | some f => f st.pending
      | none => st.pending
    let chunks2 :=
      if optimized = [] then st.chunks
      else append_chunk st.chunks (cfg.serialize optimized)
    { pending := [], chunks := chunks2 }

/-- `_buffer_modified_op`: route each handler-returned item. -/
def buffer_modified_op (cfg : EditorCfg) (op : String) (operands : List PVal)
    (result : Option (List HItem)) (st : EditorState) : EditorState :=
  match result with
  | none => st
  | some items =>
    items.foldl (fun st item =>
      match item with
      | .original => { st with pending := st.pending ++ [(operands, op)] }
      | .instr i => { st with pending := st.pending ++ [i] }
      | .bytes b =>
        let st2 := flush_pending cfg st
        { st2 with chunks := append_chunk st2.chunks b }) st

/-- One tokenizer step as seen by `_process_step`: operator tag, normalized
operands, and the raw byte span (the engine state snapshots do not influence
the produced bytes and are not modelled here). -/
structure Step where
  op : String
  operands : List PVal
  raw : ByteStr
deriving Repr

/-- `_process_step`: interception decision and routing for one instruction. -/
def process_step (cfg : EditorCfg) (st : EditorState) (step : Step) : EditorState :=
  if is_safe_to_optimize step.op step.operands (interceptList cfg) then
    if step.op ∈ cfg.handlerOps then
      buffer_modified_op cfg step.op step.operands
        (cfg.handler step.op step.operands step.raw) st
    else
      { st with pending := st.pending ++ [(step.operands, step.op)] }
  else
    let st2 := flush_pending cfg st
    { st2 with chunks := append_chunk st2.chunks step.raw }

/-- `b"".join(chunks)`. -/
def joinBytes (chunks : List ByteStr) : ByteStr := chunks.flatten

/-! ## registry.py -/

/-- `HandlerRegistry.handle_operator`: looks up the registered wrapper for the
tag; an unregistered operator yields the one-element pass-through holding the
original raw bytes.  A registered wrapper is modelled by its observable
behaviour on `(operands, raw_bytes)` after `_normalize_return_value`. -/
def handle_operator (handlers : String → Option (List PVal → ByteStr → List HItem))
    (op : String) (operands : List PVal) (raw_bytes : ByteStr) : List HItem :=
  match handlers op with
  | none => [.bytes raw_bytes]
  | some h => h operands raw_bytes

/-! ## state_iterator.py (overridden TJ semantics) -/

/-- A 6-tuple text matrix `(a, b, c, d, e, f)`. -/
structure M6 where
  a : ℚ
  b : ℚ
  c : ℚ
  d : ℚ
  e : ℚ
  f : ℚ
deriving DecidableEq, Repr

/-- The external font-metrics object: only its `string_width` lookup is
observable to `do_TJ`. -/
structure FontW where
  string_width : String → ℚ

/-- One item of a TJ operand array: a numeric kerning adjustment or a
(byte) string. -/
inductive TJItem
  | num (q : ℚ)
  | str (s : String)

/-- The slice of pdfminer's `textstate` read and written by `do_TJ`. -/
structure TJTextState where
  matrix : M6
  linematrix : ℚ × ℚ
  font : Option FontW
  fontsize : ℚ
  scaling : ℚ
  charspace : ℚ
  wordspace : ℚ

/-- `item.count(b" ")` for a string item. -/
def countSpaces (s : String) : ℕ :=
  (s.toList.filter (fun ch => ch = Char.ofNat 32)).length

/-- The `tx_accum` computed by the `do_TJ` loop. -/
def tj_displacement (fw : FontW) (ts : TJTextState) (seq : List TJItem) : ℚ :=
  seq.foldl (fun acc item =>
    match item with
    | .num n => acc - (n / 1000) * ts.fontsize * (ts.scaling / 100)
    | .str s =>
      acc + (fw.string_width s * ts.fontsize
             + (s.length : ℚ) * ts.charspace
             + (countSpaces s : ℚ) * ts.wordspace) * (ts.scaling / 100)) 0

/-- `_set_matrices_for_kerning_block`: advance the text matrix translation
along its `(a, b)` basis vectors and compensate the tracked line-matrix
delta by the exact negation. -/
def set_matrices_for_kerning_block (ts : TJTextState) (tx_accum : ℚ) :
    TJTextState :=
  { ts with
    matrix := { ts.matrix with
      e := ts.matrix.e + tx_accum * ts.matrix.a,
      f := ts.matrix.f + tx_accum * ts.matrix.b },
    linematrix := (ts.linematrix.1 - tx_accum * ts.matrix.a,
                   ts.linematrix.2 - tx_accum * ts.matrix.b) }

/-- `do_TJ`: a no-op when no font is active, otherwise the accumulated
displacement applied through `_set_matrices_for_kerning_block`. -/
def do_TJ (seq : List TJItem) (ts : TJTextState) : TJTextState :=
  match ts.font with
  | none => ts
  | some fw => set_matrices_for_kerning_block ts (tj_displacement fw ts seq)

/-- The text-line matrix `T_lm` reconstructed from the tracked pair, per the
source's convention `T_lm = T_m + [[0,0,0],[0,0,0],[g,h,0]]`. -/
def lineMatrixOf (ts : TJTextState) : M6 :=
  { ts.matrix with
    e := ts.matrix.e + ts.linematrix.1,
    f := ts.matrix.f + ts.linematrix.2 }

/-! ## api.py (Container Walker) -/

/-- The observable shape of one XObject in the document: its `/Subtype` and
the `/XObject` entries of its `/Resources` dictionary (name, target object
identity). -/
structure XObjDesc where
  subtype : String
  children : List (String × ℕ)
deriving DecidableEq, Repr

/-- A document: a finite table from object identity (`objgen`) to XObject. -/
abbrev Doc := List (ℕ × XObjDesc)

def lookupDoc (doc : Doc) (oid : ℕ) : Option XObjDesc :=
  (doc.find? (fun p => p.1 = oid)).map (·.2)

/-- All object identities present in the document table. -/
def docIds (doc : Doc) : Finset ℕ := (doc.map (·.1)).toFinset

/-- `_process_child_resources`, written with an explicit recursion bound
`gas` that is consumed only when descending into a form's child resources
(`walk_stable` below shows the bound is immaterial once it dominates the
number of unvisited objects, which is the termination argument).  Content
modification is abstracted to recording the processed object identity, in
DFS pre-order; the visited set is threaded exactly as the shared
`options.visited_streams` set is. -/
def walkAux (doc : Doc) : ℕ → Finset ℕ → List (String × ℕ) → List ℕ × Finset ℕ
  | _, visited, [] => ([], visited)
  | gas, visited, (_, oid) :: rest =>
    if oid ∈ visited then walkAux doc gas visited rest
    else
      let visited2 := insert oid visited
      match lookupDoc doc oid with
      | some d =>
        if d.subtype = "/Form" then
          match gas with
          | 0 => ([], visited2)
          | g + 1 =>
            let sub := walkAux doc g visited2 d.children
            let restR := walkAux doc (g + 1) sub.2 rest
            (oid :: sub.1 ++ restR.1, restR.2)
        else walkAux doc gas visited2 rest
      | none => walkAux doc gas visited2 rest
termination_by g _ e => (g, e.length)

/-- The Container Walker on a resource dictionary's `/XObject` entries,
run with a sufficient recursion bound and a fresh visited set (one
top-level call). -/
def process_child_resources (doc : Doc) (entries : List (String × ℕ)) :
    List ℕ × Finset ℕ :=
  walkAux doc (docIds doc).card ∅ entries

/-! ## utils/pdf_geometry.py -/

/-- The tracked text state as read by `extract_text_position`: an object or
mapping that may or may not expose a `matrix`. -/
structure TStateV where
  matrix : Option (List PVal)

/-- A 3x3 matrix (NumPy CTM case), row major. -/
structure M33 where
  m00 : ℚ
  m01 : ℚ
  m02 : ℚ
  m10 : ℚ
  m11 : ℚ
  m12 : ℚ
  m20 : ℚ
  m21 : ℚ
  m22 : ℚ

/-- The CTM slot: a 3x3 NumPy array or a 6-element (possibly malformed)
list. -/
inductive CtmV
  | np (m : M33)
  | lst (l : List PVal)

/-- A state snapshot dictionary: `tstate` / `ctm` keys, each possibly
absent. -/
structure StateD where
  tstate : Option TStateV
  ctm : Option CtmV

/-- The default text matrix `[1.0, 0.0, 0.0, 1.0, 0.0, 0.0]`. -/
def defaultTm : List PVal := [.flt 1, .flt 0, .flt 0, .flt 1, .flt 0, .flt 0]

/-- `l[i]` required numeric: IndexError when missing, TypeError when the
arithmetic meets a non-numeric entry. -/
def numAt (l : List PVal) (i : ℕ) : Except PExc ℚ := do
  match ← getAt l i with
  | .int n => pure (n : ℚ)
  | .flt q => pure q
  | _ => throw .typeError

/-- The body of the list-CTM `try` block:
`ux = tx*ctm[0] + ty*ctm[2] + ctm[4]; uy = tx*ctm[1] + ty*ctm[3] + ctm[5]`,
in evaluation order. -/
def ctm_list_eval (l : List PVal) (tx ty : ℚ) : Except PExc (List ℚ) := do
  let c0 ← numAt l 0
  let c2 ← numAt l 2
  let c4 ← numAt l 4
  let c1 ← numAt l 1
  let c3 ← numAt l 3
  let c5 ← numAt l 5
  pure [tx * c0 + ty * c2 + c4, tx * c1 + ty * c3 + c5, 1]

/-- `extract_text_position`: origin for an absent/incomplete state, NumPy or
list CTM application, and the `[tx, ty, 1]` fallback when the list CTM is
malformed.  Errors raised outside the `try` block (the `float(tm[4])`
conversions) propagate. -/
def extract_text_position (state : Option StateD) : Except PExc (List ℚ) :=
  match state with
  | none => .ok [0, 0, 1]
  | some st =>
    match st.tstate, st.ctm with
    | some ts, some ctm => do
      let tm := ts.matrix.getD defaultTm
      let tx ← pyFloatAt tm 4
      let ty ← pyFloatAt tm 5
      match ctm with
      | .np m =>
        .ok [tx * m.m00 + ty * m.m10 + m.m20,
             tx * m.m01 + ty * m.m11 + m.m21,
             tx * m.m02 + ty * m.m12 + m.m22]
      | .lst l =>
        match ctm_list_eval l tx ty with
        | .ok v => .ok v
        | .error .indexError => .ok [tx, ty, 1]
        | .error .typeError => .ok [tx, ty, 1]
        | .error e => .error e
    | _, _ => .ok [0, 0, 1]

/-! ## Lemmas about the backward dead-store scan -/

theorem scan_append (xs ys : List Instr) (fo : Finset String) :
    scan (xs ++ ys) fo =
      ((scan xs fo).1 ++ (scan ys (scan xs fo).2).1, (scan ys (scan xs fo).2).2) := by
  induction xs generalizing fo with
  | nil => simp [scan]
  | cons i t ih =>
    simp only [List.cons_append, scan]
    by_cases h1 : i.2 ∈ showTextOps
    · simp [h1, ih]
    · by_cases h2 : is_dead_store i.2 fo = true
      · simp [h1, h2, ih]
      · simp [h1, h2, ih]

theorem scan_sublist (l : List Instr) (fo : Finset String) :
    List.Sublist (scan l fo).1 l := by
  induction l generalizing fo with
  | nil => simp [scan]
  | cons i t ih =>
    simp only [scan]
    by_cases h1 : i.2 ∈ showTextOps
    · simpa [h1] using (ih ∅).cons₂ i
    · by_cases h2 : is_dead_store i.2 fo = true
      · simpa [h1, h2] using (ih fo).cons i
      · simpa [h1, h2] using (ih (update_overwrites i.2 fo)).cons₂ i

theorem subset_update_overwrites (opn : String) (fo : Finset String) :
    fo ⊆ update_overwrites opn fo := by
  unfold update_overwrites
  split
  · exact (Finset.subset_insert _ _).trans (Finset.subset_insert _ _)
  split
  · exact Finset.subset_insert _ _
  split
  · exact Finset.subset_insert _ _
  · exact subset_rfl

/-- Scanning a barrier-free segment never removes a key from the overwrite
set. -/
theorem mem_scan_snd (k : String) (l : List Instr) (fo : Finset String)
    (hmem : k ∈ fo) (hl : ∀ i ∈ l, i.2 ∉ showTextOps) :
    k ∈ (scan l fo).2 := by
  induction l generalizing fo with
  | nil => simpa [scan] using hmem
  | cons i t ih =>
    have hi : i.2 ∉ showTextOps := hl i (by simp)
    have ht : ∀ j ∈ t, j.2 ∉ showTextOps := fun j hj => hl j (by simp [hj])
    simp only [scan]
    by_cases h2 : is_dead_store i.2 fo = true
    · simpa [hi, h2] using ih fo hmem ht
    · simpa [hi, h2] using
        ih (update_overwrites i.2 fo) (subset_update_overwrites i.2 fo hmem) ht

/-- An instruction whose overwrite key is already pending is dropped by the
scan without any state change, throughout a barrier-free prefix. -/
theorem scan_mid (k : String) (o1 : List PVal) (suf : List Instr)
    (hk : k ∉ showTextOps)
    (hdead : ∀ fo : Finset String, k ∈ fo → is_dead_store k fo = true) :
    ∀ (pre : List Instr) (fo : Finset String), k ∈ fo →
      (∀ i ∈ pre, i.2 ∉ showTextOps) →
      scan (pre ++ (o1, k) :: suf) fo = scan (pre ++ suf) fo := by
  intro pre
  induction pre with
  | nil =>
    intro fo hmem _
    simp [scan, hk, hdead fo hmem]
  | cons i t ih =>
    intro fo hmem hpre
    have hi : i.2 ∉ showTextOps := hpre i (by simp)
    have ht : ∀ j ∈ t, j.2 ∉ showTextOps := fun j hj => hpre j (by simp [hj])
    simp only [List.cons_append, scan]
    by_cases h2 : is_dead_store i.2 fo = true
    · simp [hi, h2, ih fo hmem ht]
    · simp [hi, h2,
        ih (update_overwrites i.2 fo) (subset_update_overwrites i.2 fo hmem) ht]

/-- Processing the later overwrite of a pair makes the earlier one dead:
the scan result is independent of the earlier instruction's presence. -/
theorem scan_pair (k : String) (o1 o2 : List PVal) (l2r tail : List Instr)
    (hk : k ∉ showTextOps)
    (hdead : ∀ fo : Finset String, k ∈ fo → is_dead_store k fo = true)
    (hdead2 : ∀ fo : Finset String, is_dead_store k fo = true → k ∈ fo)
    (hupd : ∀ fo : Finset String, k ∈ update_overwrites k fo)
    (hl2 : ∀ i ∈ l2r, i.2 ∉ showTextOps) (fo : Finset String) :
    scan ((o2, k) :: (l2r ++ (o1, k) :: tail)) fo =
      scan ((o2, k) :: (l2r ++ tail)) fo := by
  simp only [scan, hk, if_neg (by simpa using hk)]
  by_cases h2 : is_dead_store k fo = true
  · simp [h2, scan_mid k o1 tail hk hdead l2r fo (hdead2 fo h2) hl2]
  · simp [h2,
      scan_mid k o1 tail hk hdead l2r (update_overwrites k fo) (hupd fo) hl2]

/-- General dead-store deletion: with no show-text barrier between two
instructions carrying the same overwrite key, `_remove_dead_stores` drops the
earlier one. -/
theorem remove_dead_stores_drop_first (k : String) (o1 o2 : List PVal)
    (l1 l2 l3 : List Instr)
    (hk : k ∉ showTextOps)
    (hdead : ∀ fo : Finset String, k ∈ fo → is_dead_store k fo = true)
    (hdead2 : ∀ fo : Finset String, is_dead_store k fo = true → k ∈ fo)
    (hupd : ∀ fo : Finset String, k ∈ update_overwrites k fo)
    (hl2 : ∀ i ∈ l2, i.2 ∉ showTextOps) :
    remove_dead_stores (l1 ++ (o1, k) :: (l2 ++ (o2, k) :: l3)) =
      remove_dead_stores (l1 ++ (l2 ++ (o2, k) :: l3)) := by
  have hl2r : ∀ i ∈ l2.reverse, i.2 ∉ showTextOps := by
    intro i hi
    exact hl2 i (List.mem_reverse.mp hi)
  have hrev1 : (l1 ++ (o1, k) :: (l2 ++ (o2, k) :: l3)).reverse =
      l3.reverse ++ (o2, k) :: (l2.reverse ++ (o1, k) :: l1.reverse) := by
    simp [List.reverse_append, List.reverse_cons, List.append_assoc]
  have hrev2 : (l1 ++ (l2 ++ (o2, k) :: l3)).reverse =
      l3.reverse ++ (o2, k) :: (l2.reverse ++ l1.reverse) := by
    simp [List.reverse_append, List.reverse_cons, List.append_assoc]
  unfold remove_dead_stores
  rw [hrev1, hrev2, scan_append, scan_append,
    scan_pair k o1 o2 l2.reverse l1.reverse hk hdead hdead2 hupd hl2r]

theorem key_props_Tz :
    ("Tz" : String) ∉ showTextOps ∧
    (∀ fo : Finset String, "Tz" ∈ fo → is_dead_store "Tz" fo = true) ∧
    (∀ fo : Finset String, is_dead_store "Tz" fo = true → "Tz" ∈ fo) ∧
    (∀ fo : Finset String, "Tz" ∈ update_overwrites "Tz" fo) := by
  refine ⟨by decide, ?_, ?_, ?_⟩ <;> intro fo <;>
    simp [is_dead_store, update_overwrites]

/-- The backward scan keeps everything on its own output (same initial
overwrite set). -/
theorem scan_idem (l : List Instr) (fo : Finset String) :
    scan (scan l fo).1 fo = scan l fo := by
  induction l generalizing fo with
  | nil => simp [scan]
  | cons i t ih =>
    by_cases h1 : i.2 ∈ showTextOps
    · simp [scan, h1, ih ∅]
    · by_cases h2 : is_dead_store i.2 fo = true
      · simpa [scan, h1, h2] using ih fo
      · simp [scan, h1, h2, ih (update_overwrites i.2 fo)]

/-- Pass 1 is idempotent. -/
theorem remove_dead_stores_idem (ops : List Instr) :
    remove_dead_stores (remove_dead_stores ops) = remove_dead_stores ops := by
  unfold remove_dead_stores
  rw [List.reverse_reverse, scan_idem]

/-- `DropTzTf y z`: `y` arises from `z` by deleting some instructions whose
operator is `Tz` or `Tf` — the shape of the forward pass's effect on a
Tm-free list. -/
inductive DropTzTf : List Instr → List Instr → Prop
  | nil : DropTzTf [] []
  | keep {a : Instr} {l1 l2 : List Instr} :
      DropTzTf l1 l2 → DropTzTf (a :: l1) (a :: l2)
  | drop {a : Instr} {l1 l2 : List Instr} :
      a.2 = "Tz" ∨ a.2 = "Tf" → DropTzTf l1 l2 → DropTzTf l1 (a :: l2)

theorem DropTzTf.append_keep {l1 l2 : List Instr} (x : Instr)
    (h : DropTzTf l1 l2) : DropTzTf (l1 ++ [x]) (l2 ++ [x]) := by
  induction h with
  | nil => exact DropTzTf.keep DropTzTf.nil
  | keep _ ih => exact DropTzTf.keep ih
  | drop hx _ ih => exact DropTzTf.drop hx ih

theorem DropTzTf.append_drop {l1 l2 : List Instr} (x : Instr)
    (hx : x.2 = "Tz" ∨ x.2 = "Tf") (h : DropTzTf l1 l2) :
    DropTzTf l1 (l2 ++ [x]) := by
  induction h with
  | nil => exact DropTzTf.drop hx DropTzTf.nil
  | keep _ ih => exact DropTzTf.keep ih
  | drop hy _ ih => exact DropTzTf.drop hy ih

theorem DropTzTf.rev {l1 l2 : List Instr} (h : DropTzTf l1 l2) :
    DropTzTf l1.reverse l2.reverse := by
  induction h with
  | nil => exact DropTzTf.nil
  | keep _ ih => simpa using ih.append_keep _
  | drop hx _ ih => simpa using ih.append_drop _ hx

theorem is_dead_store_mono {fo' fo : Finset String} (hsub : fo' ⊆ fo)
    (opn : String) (h : is_dead_store opn fo = false) :
    is_dead_store opn fo' = false := by
  unfold is_dead_store at h ⊢
  split_ifs at h ⊢ <;>
    first
    | rfl
    | (simp only [decide_eq_false_iff_not] at h ⊢; exact fun hc => h (hsub hc))

theorem update_overwrites_mono {fo' fo : Finset String} (hsub : fo' ⊆ fo)
    (opn : String) : update_overwrites opn fo' ⊆ update_overwrites opn fo := by
  unfold update_overwrites
  split
  · exact Finset.insert_subset_insert _ (Finset.insert_subset_insert _ hsub)
  split
  · exact Finset.insert_subset_insert _ hsub
  split
  · exact Finset.insert_subset_insert _ hsub
  · exact hsub

/-- If the scan keeps every instruction of `z` from overwrite set `fo`, it
also keeps every instruction of any Tz/Tf-deletion `y` of `z`, from any
smaller set. -/
theorem keeps_all_drop {r' r : List Instr} (h : DropTzTf r' r) :
    ∀ fo' fo : Finset String, fo' ⊆ fo → (scan r fo).1 = r →
      (scan r' fo').1 = r' := by
  induction h with
  | nil => intro fo' fo _ _; simp [scan]
  | @keep a l1 l2 _ ih =>
    intro fo' fo hsub hk
    by_cases hb : a.2 ∈ showTextOps
    · have h2 : (scan l2 ∅).1 = l2 := by simpa [scan, hb] using hk
      simp [scan, hb, ih ∅ ∅ subset_rfl h2]
    · by_cases hd : is_dead_store a.2 fo = true
      · exfalso
        have hs := (scan_sublist l2 fo).length_le
        have hk2 : (scan l2 fo).1 = a :: l2 := by
          simpa [scan, hb, hd] using hk
        rw [hk2] at hs
        simp at hs
      · have hd2 : is_dead_store a.2 fo' = false :=
          is_dead_store_mono hsub a.2 (by simpa using hd)
        have htail : (scan l2 (update_overwrites a.2 fo)).1 = l2 := by
          simpa [scan, hb, hd] using hk
        simp [scan, hb, hd2,
          ih _ _ (update_overwrites_mono hsub a.2) htail]
  | @drop a l1 l2 hx _ ih =>
    intro fo' fo hsub hk
    have hb : a.2 ∉ showTextOps := by
      rcases hx with h | h <;> simp [h, showTextOps]
    by_cases hd : is_dead_store a.2 fo = true
    · exfalso
      have hs := (scan_sublist l2 fo).length_le
      have hk2 : (scan l2 fo).1 = a :: l2 := by
        simpa [scan, hb, hd] using hk
      rw [hk2] at hs
      simp at hs
    · have htail : (scan l2 (update_overwrites a.2 fo)).1 = l2 := by
        simpa [scan, hb, hd] using hk
      exact ih fo' (update_overwrites a.2 fo)
        (hsub.trans (subset_update_overwrites a.2 fo)) htail

/-! ## Lemmas about the forward consolidation pass -/

theorem handle_tz_cases (operands : List PVal) (opn : String)
    (st : OptimizerState) :
    handle_tz operands opn st = (none, st) ∨
    ∃ st2, handle_tz operands opn st = (some (operands, opn), st2) := by
  rcases h : pyFloatAt operands 0 with e | v
  · simp [handle_tz, h]
  · simp only [handle_tz, h]
    split_ifs with hv
    · simp
    · simp

theorem handle_tf_cases (operands : List PVal) (opn : String)
    (st : OptimizerState) :
    handle_tf operands opn st = .ok (none, st) ∨
    (∃ st2, handle_tf operands opn st = .ok (some (operands, opn), st2)) ∨
    (∃ e, handle_tf operands opn st = .error e) := by
  rcases h : tf_parse operands with e | p
  · simp only [handle_tf, h]
    split_ifs with he
    · exact Or.inr (Or.inr ⟨e, rfl⟩)
    · exact Or.inr (Or.inl ⟨st, rfl⟩)
  · rcases p with ⟨nm, sz⟩
    simp only [handle_tf, h]
    by_cases hr : redundantTf st nm sz = true
    · refine Or.inl ?_
      simp [hr]
    · refine Or.inr (Or.inl
        ⟨{ st with current_tf_name := some nm, current_tf_size := some sz }, ?_⟩)
      simp [hr]

theorem handle_td_fst (operands : List PVal) (opn : String)
    (st : OptimizerState) :
    ∃ st2, handle_td operands opn st = (some (operands, opn), st2) := by
  rcases h : st.current_tm with _ | cur
  · exact ⟨st, by simp [handle_td, h]⟩
  · rcases h2 : td_update operands cur with e | cur2
    · exact ⟨{ st with current_tm := none }, by simp [handle_td, h, h2]⟩
    · exact ⟨{ st with current_tm := some cur2 }, by simp [handle_td, h, h2]⟩

/-- Classification of a forward-pass step on a non-Tm instruction: kept
unchanged, dropped with the state untouched (Tz/Tf redundancy), or an
uncaught error. -/
theorem consolidate_step_cases (operands : List PVal) (opn : String)
    (st : OptimizerState) (hTm : opn ≠ "Tm") :
    (∃ st2, consolidate_step operands opn st = .ok (some (operands, opn), st2)) ∨
    ((opn = "Tz" ∨ opn = "Tf") ∧ consolidate_step operands opn st = .ok (none, st)) ∨
    (∃ e, consolidate_step operands opn st = .error e) := by
  by_cases h1 : opn = "Tz"
  · subst h1
    rcases handle_tz_cases operands "Tz" st with h | ⟨st2, h⟩
    · exact Or.inr (Or.inl ⟨Or.inl rfl, by simp [consolidate_step, h]⟩)
    · exact Or.inl ⟨st2, by simp [consolidate_step, h]⟩
  by_cases h2 : opn = "Tf"
  · subst h2
    rcases handle_tf_cases operands "Tf" st with h | ⟨st2, h⟩ | ⟨e, h⟩
    · exact Or.inr (Or.inl ⟨Or.inr rfl, by simp [consolidate_step, h]⟩)
    · exact Or.inl ⟨st2, by simp [consolidate_step, h]⟩
    · exact Or.inr (Or.inr ⟨e, by simp [consolidate_step, h]⟩)
  by_cases h4 : opn = "Td"
  · subst h4
    rcases handle_td_fst operands "Td" st with ⟨st2, h⟩
    exact Or.inl ⟨st2, by simp [consolidate_step, h]⟩
  by_cases h5 : opn = "BT"
  · subst h5
    exact Or.inl ⟨{ st with current_tm := none }, by simp [consolidate_step]⟩
  · exact Or.inl ⟨st, by simp [consolidate_step, h1, h2, hTm, h4, h5]⟩

/-- On a Tm-free list the forward pass deletes only redundant Tz/Tf
instructions and keeps everything else verbatim. -/
theorem consolidate_del :
    ∀ (z : List Instr) (st : OptimizerState) (y : List Instr),
      (∀ i ∈ z, i.2 ≠ "Tm") → consolidate_aux z st = .ok y → DropTzTf y z := by
  intro z
  induction z with
  | nil =>
    intro st y _ h
    simp only [consolidate_aux] at h
    cases h
    exact .nil
  | cons i t ih =>
    intro st y hTm h
    have hTmi : i.2 ≠ "Tm" := hTm i (by simp)
    have hTmt : ∀ j ∈ t, j.2 ≠ "Tm" := fun j hj => hTm j (by simp [hj])
    rcases consolidate_step_cases i.1 i.2 st hTmi with
      ⟨st2, hstep⟩ | ⟨hzf, hstep⟩ | ⟨e, hstep⟩
    · rcases ht : consolidate_aux t st2 with e | tail
      · have hred : consolidate_aux (i :: t) st = .error e := by
          simp only [consolidate_aux, hstep, ht]
        rw [hred] at h
        exact absurd h (by simp)
      · have hred : consolidate_aux (i :: t) st = .ok ((i.1, i.2) :: tail) := by
          simp only [consolidate_aux, hstep, ht]
        rw [hred] at h
        have hy : (i.1, i.2) :: tail = y := by simpa using h
        rw [← hy]
        exact DropTzTf.keep (ih st2 tail hTmt ht)
    · rcases ht : consolidate_aux t st with e | tail
      · have hred : consolidate_aux (i :: t) st = .error e := by
          simp only [consolidate_aux, hstep, ht]
        rw [hred] at h
        exact absurd h (by simp)
      · have hred : consolidate_aux (i :: t) st = .ok tail := by
          simp only [consolidate_aux, hstep, ht]
        rw [hred] at h
        have hy : tail = y := by simpa using h
        rw [← hy]
        exact DropTzTf.drop hzf (ih st tail hTmt ht)
    · have hred : consolidate_aux (i :: t) st = .error e := by
        simp only [consolidate_aux, hstep]
      rw [hred] at h
      exact absurd h (by simp)

/-- On a Tm-free list the forward pass is idempotent: replaying it on its own
output (from the same initial state) keeps everything. -/
theorem consolidate_replay :
    ∀ (z : List Instr) (st : OptimizerState) (y : List Instr),
      (∀ i ∈ z, i.2 ≠ "Tm") → consolidate_aux z st = .ok y →
      consolidate_aux y st = .ok y := by
  intro z
  induction z with
  | nil =>
    intro st y _ h
    simp only [consolidate_aux] at h
    cases h
    rfl
  | cons i t ih =>
    intro st y hTm h
    have hTmi : i.2 ≠ "Tm" := hTm i (by simp)
    have hTmt : ∀ j ∈ t, j.2 ≠ "Tm" := fun j hj => hTm j (by simp [hj])
    rcases consolidate_step_cases i.1 i.2 st hTmi with
      ⟨st2, hstep⟩ | ⟨hzf, hstep⟩ | ⟨e, hstep⟩
    · rcases ht : consolidate_aux t st2 with e | tail
      · have hred : consolidate_aux (i :: t) st = .error e := by
          simp only [consolidate_aux, hstep, ht]
        rw [hred] at h
        exact absurd h (by simp)
      · have hred : consolidate_aux (i :: t) st = .ok ((i.1, i.2) :: tail) := by
          simp only [consolidate_aux, hstep, ht]
        rw [hred] at h
        have hy : (i.1, i.2) :: tail = y := by simpa using h
        rw [← hy]
        simp only [consolidate_aux, hstep, ih st2 tail hTmt ht]
    · rcases ht : consolidate_aux t st with e | tail
      · have hred : consolidate_aux (i :: t) st = .error e := by
          simp only [consolidate_aux, hstep, ht]
        rw [hred] at h
        exact absurd h (by simp)
      · have hred : consolidate_aux (i :: t) st = .ok tail := by
          simp only [consolidate_aux, hstep, ht]
        rw [hred] at h
        have hy : tail = y := by simpa using h
        rw [← hy]
        exact ih st tail hTmt ht
    · have hred : consolidate_aux (i :: t) st = .error e := by
        simp only [consolidate_aux, hstep]
      rw [hred] at h
      exact absurd h (by simp)

theorem key_props_Tm :
    ("Tm" : String) ∉ showTextOps ∧
    (∀ fo : Finset String, "Tm" ∈ fo → is_dead_store "Tm" fo = true) ∧
    (∀ fo : Finset String, is_dead_store "Tm" fo = true → "Tm" ∈ fo) ∧
    (∀ fo : Finset String, "Tm" ∈ update_overwrites "Tm" fo) := by
  refine ⟨by decide, ?_, ?_, ?_⟩ <;> intro fo <;>
    simp [is_dead_store, update_overwrites]

theorem mem_remove_dead_stores {i : Instr} {ops : List Instr}
    (h : i ∈ remove_dead_stores ops) : i ∈ ops := by
  unfold remove_dead_stores at h
  rw [List.mem_reverse] at h
  exact List.mem_reverse.mp ((scan_sublist ops.reverse ∅).subset h)

/-! ## Claim theorems -/

/-- C1 (counterexample): the input holds two horizontal-scale-set (Tz)
instructions whose values 50 and 50.0005 differ by less than 0.001 with no
show-text between them, yet `optimize_ops` keeps the SECOND and drops the
first (the claim says the first is kept and the second dropped). -/
theorem spec_C1_counterexample :
    qabs ((100001 / 2000 : ℚ) - 50) < TZ_TOL ∧
    optimize_ops [([PVal.int 50], "Tz"), ([PVal.flt (100001 / 2000)], "Tz")] =
      .ok [([PVal.flt (100001 / 2000)], "Tz")] ∧
    ([PVal.int 50], "Tz") ∉ [(([PVal.flt (100001 / 2000)], "Tz") : Instr)] := by
  decide

/-- C1 (amended): for two Tz instructions with numeric values differing by
less than 0.001 and no show-text instruction between them, the optimizer
always drops the FIRST of the two (the dead-store pass removes it): its
output equals its output on the list with the first occurrence deleted, so
at most the second can be emitted. -/
theorem spec_C1_amended_tz_first_dropped (o1 o2 : List PVal)
    (l1 l2 l3 : List Instr) (v1 v2 : ℚ)
    (hv1 : pyFloatAt o1 0 = .ok v1) (hv2 : pyFloatAt o2 0 = .ok v2)
    (htol : qabs (v1 - v2) < TZ_TOL)
    (hl2 : ∀ i ∈ l2, i.2 ∉ showTextOps) :
    optimize_ops (l1 ++ (o1, "Tz") :: (l2 ++ (o2, "Tz") :: l3)) =
      optimize_ops (l1 ++ (l2 ++ (o2, "Tz") :: l3)) := by
  have hrds := remove_dead_stores_drop_first "Tz" o1 o2 l1 l2 l3
    key_props_Tz.1 key_props_Tz.2.1 key_props_Tz.2.2.1 key_props_Tz.2.2.2 hl2
  have hne1 : l1 ++ (o1, "Tz") :: (l2 ++ (o2, "Tz") :: l3) ≠ [] := by simp
  have hne2 : l1 ++ (l2 ++ (o2, "Tz") :: l3) ≠ [] := by simp
  rw [optimize_ops, optimize_ops, if_neg hne1, if_neg hne2, hrds]

theorem spec_C1_witness :
    optimize_ops [([PVal.int 50], "Tz"), ([PVal.flt (100001 / 2000)], "Tz"),
        ([PVal.pstr "T"], "Tj")] =
      optimize_ops [([PVal.flt (100001 / 2000)], "Tz"), ([PVal.pstr "T"], "Tj")] :=
  spec_C1_amended_tz_first_dropped [PVal.int 50] [PVal.flt (100001 / 2000)]
    [] [] [([PVal.pstr "T"], "Tj")] 50 (100001 / 2000)
    (by decide) (by decide) (by decide) (by simp)

/-- C2: for any two absolute-matrix-set (Tm) instructions with no
intervening show-text instruction, `optimize_ops` removes the first,
regardless of operand values (its output equals its output on the list with
the first occurrence deleted); and the concrete scenario
`(1 0 0 1 100 100) Tm (1 0 0 1 100 90) Tm (B) Tj` optimizes to
`(1 0 0 1 100 90) Tm (B) Tj`. -/
theorem spec_C2_dead_store_tm (o1 o2 : List PVal) (l1 l2 l3 : List Instr)
    (hl2 : ∀ i ∈ l2, i.2 ∉ showTextOps) :
    (optimize_ops (l1 ++ (o1, "Tm") :: (l2 ++ (o2, "Tm") :: l3)) =
      optimize_ops (l1 ++ (l2 ++ (o2, "Tm") :: l3))) ∧
    optimize_ops
      [([PVal.int 1, PVal.int 0, PVal.int 0, PVal.int 1, PVal.int 100,
         PVal.int 100], "Tm"),
       ([PVal.int 1, PVal.int 0, PVal.int 0, PVal.int 1, PVal.int 100,
         PVal.int 90], "Tm"),
       ([PVal.pstr "B"], "Tj")] =
      .ok [([PVal.int 1, PVal.int 0, PVal.int 0, PVal.int 1, PVal.int 100,
             PVal.int 90], "Tm"),
           ([PVal.pstr "B"], "Tj")] := by
  constructor
  · have hrds := remove_dead_stores_drop_first "Tm" o1 o2 l1 l2 l3
      key_props_Tm.1 key_props_Tm.2.1 key_props_Tm.2.2.1 key_props_Tm.2.2.2 hl2
    have hne1 : l1 ++ (o1, "Tm") :: (l2 ++ (o2, "Tm") :: l3) ≠ [] := by simp
    have hne2 : l1 ++ (l2 ++ (o2, "Tm") :: l3) ≠ [] := by simp
    rw [optimize_ops, optimize_ops, if_neg hne1, if_neg hne2, hrds]
  · decide

theorem spec_C2_witness :
    optimize_ops
      [([PVal.int 1, PVal.int 0, PVal.int 0, PVal.int 1, PVal.int 100,
         PVal.int 100], "Tm"),
       ([PVal.int 1, PVal.int 0, PVal.int 0, PVal.int 1, PVal.int 100,
         PVal.int 90], "Tm"),
       ([PVal.pstr "B"], "Tj")] =
      optimize_ops
        [([PVal.int 1, PVal.int 0, PVal.int 0, PVal.int 1, PVal.int 100,
           PVal.int 90], "Tm"),
         ([PVal.pstr "B"], "Tj")] :=
  (spec_C2_dead_store_tm
    [PVal.int 1, PVal.int 0, PVal.int 0, PVal.int 1, PVal.int 100, PVal.int 100]
    [PVal.int 1, PVal.int 0, PVal.int 0, PVal.int 1, PVal.int 100, PVal.int 90]
    [] [] [([PVal.pstr "B"], "Tj")] (by simp)).1

/-- C3 (counterexample): `optimize_ops` is not idempotent.  On the input
below the first run converts the middle matrix-set to a relative move and
leaves the last matrix-set in place (its geometry is 0.00014 away from the
tracked one); on the second run the tracked geometry is the FIRST matrix's
(only 0.00005 away), so the second run rewrites the last matrix-set into a
relative move — the output changes. -/
theorem spec_C3_counterexample :
    optimize_ops
      [([PVal.int 1, PVal.int 0, PVal.int 0, PVal.int 1, PVal.int 0,
         PVal.int 0], "Tm"),
       ([PVal.pstr "x"], "Tj"),
       ([PVal.flt (100009 / 100000), PVal.int 0, PVal.int 0, PVal.int 1,
         PVal.int 5, PVal.int 5], "Tm"),
       ([PVal.pstr "x"], "Tj"),
       ([PVal.flt (99995 / 100000), PVal.int 0, PVal.int 0, PVal.int 1,
         PVal.int 9, PVal.int 9], "Tm"),
       ([PVal.pstr "x"], "Tj")] =
      .ok [([PVal.int 1, PVal.int 0, PVal.int 0, PVal.int 1, PVal.int 0,
             PVal.int 0], "Tm"),
           ([PVal.pstr "x"], "Tj"),
           ([PVal.flt 5, PVal.flt 5], "Td"),
           ([PVal.pstr "x"], "Tj"),
           ([PVal.flt (99995 / 100000), PVal.int 0, PVal.int 0, PVal.int 1,
             PVal.int 9, PVal.int 9], "Tm"),
           ([PVal.pstr "x"], "Tj")] ∧
    optimize_ops
      [([PVal.int 1, PVal.int 0, PVal.int 0, PVal.int 1, PVal.int 0,
         PVal.int 0], "Tm"),
       ([PVal.pstr "x"], "Tj"),
       ([PVal.flt 5, PVal.flt 5], "Td"),
       ([PVal.pstr "x"], "Tj"),
       ([PVal.flt (99995 / 100000), PVal.int 0, PVal.int 0, PVal.int 1,
         PVal.int 9, PVal.int 9], "Tm"),
       ([PVal.pstr "x"], "Tj")] =
      .ok [([PVal.int 1, PVal.int 0, PVal.int 0, PVal.int 1, PVal.int 0,
             PVal.int 0], "Tm"),
           ([PVal.pstr "x"], "Tj"),
           ([PVal.flt 5, PVal.flt 5], "Td"),
           ([PVal.pstr "x"], "Tj"),
           ([PVal.flt 4, PVal.flt 4], "Td"),
           ([PVal.pstr "x"], "Tj")] := by
  decide

/-- C3 (amended): `optimize_ops` is idempotent on every error-free input
that contains no absolute-matrix-set (Tm) instruction; with Tm instructions
present, the tolerance comparison of the forward pass is not transitive and
a second run can rewrite further. -/
theorem spec_C3_amended_idempotent_noTm (x y : List Instr)
    (hTm : ∀ i ∈ x, i.2 ≠ "Tm") (h : optimize_ops x = .ok y) :
    optimize_ops y = .ok y := by
  by_cases hx : x = []
  · subst hx
    rw [optimize_ops, if_pos rfl] at h
    cases h
    rfl
  · rw [optimize_ops, if_neg hx] at h
    have hTmz : ∀ i ∈ remove_dead_stores x, i.2 ≠ "Tm" :=
      fun i hi => hTm i (mem_remove_dead_stores hi)
    by_cases hy : y = []
    · subst hy
      rw [optimize_ops, if_pos rfl]
    · rw [optimize_ops, if_neg hy]
      have hdel : DropTzTf y (remove_dead_stores x) :=
        consolidate_del (remove_dead_stores x) {} y hTmz h
      have hclean := remove_dead_stores_idem x
      have hscanz : (scan (remove_dead_stores x).reverse ∅).1 =
          (remove_dead_stores x).reverse := by
        calc (scan (remove_dead_stores x).reverse ∅).1
            = (scan (remove_dead_stores x).reverse ∅).1.reverse.reverse := by
              rw [List.reverse_reverse]
          _ = (remove_dead_stores x).reverse := by
              rw [show (scan (remove_dead_stores x).reverse ∅).1.reverse =
                  remove_dead_stores x from hclean]
      have hkeep : (scan y.reverse ∅).1 = y.reverse :=
        keeps_all_drop hdel.rev ∅ ∅ subset_rfl hscanz
      have hrds : remove_dead_stores y = y := by
        unfold remove_dead_stores
        rw [hkeep, List.reverse_reverse]
      rw [hrds]
      exact consolidate_replay (remove_dead_stores x) {} y hTmz h

theorem spec_C3_witness :
    optimize_ops [([PVal.int 60], "Tz"), ([PVal.pstr "T"], "Tj")] =
      .ok [([PVal.int 60], "Tz"), ([PVal.pstr "T"], "Tj")] :=
  spec_C3_amended_idempotent_noTm
    [([PVal.int 50], "Tz"), ([PVal.int 60], "Tz"), ([PVal.pstr "T"], "Tj")]
    [([PVal.int 60], "Tz"), ([PVal.pstr "T"], "Tj")]
    (by decide) (by decide)

@[simp] theorem pexc_bind_ok {α β : Type} (a : α) (f : α → Except PExc β) :
    (Except.ok a : Except PExc α) >>= f = f a := rfl

@[simp] theorem pexc_bind_err {α β : Type} (e : PExc) (f : α → Except PExc β) :
    (Except.error e : Except PExc α) >>= f = .error e := rfl

@[simp] theorem pexc_pure_eq {α : Type} (a : α) :
    (pure a : Except PExc α) = .ok a := rfl

/-- C5: a Tm instruction processed while an absolute matrix
`[a, b, c, d, e, f]` is tracked and whose operands parse to
`[a2, b2, c2, d2, e2, f2]` with the four linear components each within
0.0001 of the tracked ones, the tracked matrix axis-aligned
(`max(|b|,|c|) < 0.0001 < min(|a|,|d|)`), is replaced by a relative move
with operands `round((e2-e)/a, 4)` and `round((f2-f)/d, 4)`; and (second
conjunct) on every Tm instruction the tracked matrix is updated to the new
parsed values — cleared to `none` when the numeric conversion fails —
whether or not a conversion to Td occurred. -/
theorem spec_C5_tm_to_td_conversion (operands : List PVal) (opn : String)
    (st : OptimizerState) (a b c d e f a2 b2 c2 d2 e2 f2 : ℚ)
    (hcur : st.current_tm = some [a, b, c, d, e, f])
    (hnew : floatList operands = .ok [a2, b2, c2, d2, e2, f2])
    (ha : qabs (a2 - a) < TM_TOL) (hb : qabs (b2 - b) < TM_TOL)
    (hc : qabs (c2 - c) < TM_TOL) (hd : qabs (d2 - d) < TM_TOL)
    (hoff : qmax (qabs b) (qabs c) < TM_TOL)
    (hdiag : TM_TOL < qmin (qabs a) (qabs d)) :
    (handle_tm operands opn st =
      (some ([PVal.flt (py_round ((e2 - e) / a) ROUNDING_PLACES),
              PVal.flt (py_round ((f2 - f) / d) ROUNDING_PLACES)], "Td"),
       { st with current_tm := some [a2, b2, c2, d2, e2, f2] })) ∧
    ∀ (operands2 : List PVal) (opn2 : String) (st2 : OptimizerState),
      ((handle_tm operands2 opn2 st2).2).current_tm =
        (match floatList operands2 with
         | .ok l => some l
         | .error _ => none) := by
  constructor
  · have hbody : tm_try_body operands [a, b, c, d, e, f] =
        .ok (some ([PVal.flt (py_round ((e2 - e) / a) ROUNDING_PLACES),
                    PVal.flt (py_round ((f2 - f) / d) ROUNDING_PLACES)], "Td")) := by
      simp [tm_try_body, hnew, matches_geometry, matches_geometry_check, qAt,
        ha, hb, hc, hd, hoff, hdiag]
    simp [handle_tm, try_optimize_tm, hcur, hbody, hnew]
  · intro operands2 opn2 st2
    rcases h : try_optimize_tm operands2 st2.current_tm with _ | op2 <;>
      rcases h2 : floatList operands2 with e2x | l2x <;>
        simp [handle_tm, h, h2]

theorem spec_C5_witness :
    handle_tm [PVal.flt 1, PVal.int 0, PVal.int 0, PVal.flt 1, PVal.int 3,
        PVal.int 4] "Tm"
      { current_tm := some [1, 0, 0, 1, 0, 0] } =
      (some ([PVal.flt (py_round ((3 - 0) / 1) ROUNDING_PLACES),
              PVal.flt (py_round ((4 - 0) / 1) ROUNDING_PLACES)], "Td"),
       { current_tm := some [1, 0, 0, 1, 3, 4] }) :=
  (spec_C5_tm_to_td_conversion
    [PVal.flt 1, PVal.int 0, PVal.int 0, PVal.flt 1, PVal.int 3, PVal.int 4]
    "Tm" { current_tm := some [1, 0, 0, 1, 0, 0] }
    1 0 0 1 0 0 1 0 0 1 3 4 rfl (by decide) (by decide) (by decide)
    (by decide) (by decide) (by decide) (by decide)).1

/-- C4: the optimizer is NOT exception-free.  `_handle_tf` catches only
`(ValueError, IndexError, TypeError)`, so `float(operands[1])` on an int
too large for a float raises an uncaught OverflowError that aborts the
batch, contradicting the never-raise / pass-through-unmodified claim
(the module's own `CONVERSION_ERRORS` tuple includes OverflowError).  A
caught conversion failure (second conjunct) does pass the instruction
through unmodified. -/
theorem spec_C4_tf_overflow_raises :
    optimize_ops [([PVal.name "/F1", PVal.int (Int.ofNat (10 ^ 400))], "Tf")] =
      .error .overflowError ∧
    optimize_ops [([PVal.name "/F1", PVal.name "/x"], "Tf")] =
      .ok [([PVal.name "/F1", PVal.name "/x"], "Tf")] := by
  decide

/-! ## Editor pass-through lemmas -/

theorem process_step_not_safe (cfg : EditorCfg) (st : EditorState) (step : Step)
    (h : is_safe_to_optimize step.op step.operands (interceptList cfg) = false) :
    process_step cfg st step =
      { flush_pending cfg st with
        chunks := append_chunk (flush_pending cfg st).chunks step.raw } := by
  unfold process_step
  rw [h]
  simp

theorem append_chunk_join (cs : List ByteStr) (chunk : ByteStr)
    (h : chunk ≠ []) :
    ∃ pre, joinBytes (append_chunk cs chunk) = pre ++ chunk := by
  unfold append_chunk
  rw [if_neg h]
  by_cases h2 : cs = []
  · rw [if_pos h2]
    exact ⟨joinBytes cs, by simp [joinBytes]⟩
  · rw [if_neg h2]
    dsimp only
    split
    · exact ⟨joinBytes cs ++ [10], by simp [joinBytes]⟩
    · exact ⟨joinBytes cs, by simp [joinBytes]⟩

/-- C6 (counterexample): the operand of this Tz instruction is the numeric
value 2305843009213693952000.0, far outside the safe fixed-point range
(1152921504606846976), yet `_is_safe_to_optimize` accepts it — the range
check covers only `int` operands, not floats — and `_process_step` routes
the instruction into the optimizer buffer instead of copying its raw bytes
through: the claim fails for float operands. -/
theorem spec_C6_counterexample :
    (1152921504606846976 : ℚ) < 2305843009213693952000 ∧
    is_safe_to_optimize "Tz" [PVal.flt 2305843009213693952000]
      (interceptList
        { handlerOps := [], optimizer := some (fun l => l),
          serialize := fun _ => [], handler := fun _ _ _ => none }) = true ∧
    process_step
      { handlerOps := [], optimizer := some (fun l => l),
        serialize := fun _ => [], handler := fun _ _ _ => none }
      { pending := [], chunks := [] }
      { op := "Tz", operands := [PVal.flt 2305843009213693952000], raw := [49] } =
      { pending := [([PVal.flt 2305843009213693952000], "Tz")], chunks := [] } := by
  refine ⟨by decide, by decide, ?_⟩
  rfl

/-- C6 (amended): an operand that is an `int` outside the safe fixed-point
range `±1152921504606846976`, or an embedded binary sub-stream reference,
makes the instruction ineligible (float operands of any magnitude do not):
the Stream Editor never routes such an instruction to a handler or to the
optimizer — for every handler and optimizer configuration it flushes the
pending buffer and appends the instruction's original raw bytes unchanged,
so the instruction's output bytes equal its raw input bytes. -/
theorem spec_C6_amended_unsafe_pass_through (cfg : EditorCfg)
    (st : EditorState) (step : Step)
    (hbadop : (∃ n : ℤ, PVal.int n ∈ step.operands ∧
                  (n > SAFE_INT_BOUND ∨ n < -SAFE_INT_BOUND)) ∨
               PVal.stream ∈ step.operands) :
    process_step cfg st step =
      { flush_pending cfg st with
        chunks := append_chunk (flush_pending cfg st).chunks step.raw } ∧
    (step.raw ≠ [] →
      ∃ pre, joinBytes ((process_step cfg st step).chunks) = pre ++ step.raw) := by
  have hsafe : is_safe_to_optimize step.op step.operands (interceptList cfg)
      = false := by
    unfold is_safe_to_optimize
    by_cases hmem : step.op ∈ interceptList cfg
    · rw [if_neg (not_not_intro hmem)]
      by_cases hint2 : (step.operands.any fun arg =>
          match arg with
          | PVal.int n => decide (n > SAFE_INT_BOUND ∨ n < -SAFE_INT_BOUND)
          | _ => false) = true
      · rw [if_pos hint2]
      · rw [if_neg hint2]
        have hstream : (step.operands.any fun arg =>
            match arg with
            | PVal.stream => true
            | _ => false) = true := by
          rcases hbadop with ⟨n, hn, hr⟩ | hs
          · exact absurd (List.any_eq_true.mpr
              ⟨PVal.int n, hn, by simpa using hr⟩) hint2
          · exact List.any_eq_true.mpr ⟨PVal.stream, hs, rfl⟩
        rw [if_pos hstream]
    · rw [if_pos hmem]
  have hmain := process_step_not_safe cfg st step hsafe
  refine ⟨hmain, fun hraw => ?_⟩
  rw [hmain]
  exact append_chunk_join (flush_pending cfg st).chunks step.raw hraw

theorem spec_C6_witness :
    process_step
      { handlerOps := [], optimizer := some (fun l => l),
        serialize := fun _ => [], handler := fun _ _ _ => none }
      { pending := [], chunks := [] }
      { op := "Tz", operands := [PVal.int 2305843009213693952], raw := [49] } =
      { pending := [], chunks := [[49]] } :=
  (spec_C6_amended_unsafe_pass_through
    { handlerOps := [], optimizer := some (fun l => l),
      serialize := fun _ => [], handler := fun _ _ _ => none }
    { pending := [], chunks := [] }
    { op := "Tz", operands := [PVal.int 2305843009213693952], raw := [49] }
    (Or.inl ⟨2305843009213693952, by decide, by decide⟩)).1

/-- C7: an operator that has no registered handler and is not in the
optimizer's declared relevant-operator set is never intercepted: the Stream
Editor flushes the pending buffer and copies the instruction's original raw
bytes to the output unchanged (they appear verbatim as the final segment of
the joined output); and `HandlerRegistry.handle_operator` on an
unregistered operator returns the one-element list holding the original raw
bytes. -/
theorem spec_C7_pass_through_default (cfg : EditorCfg) (st : EditorState)
    (step : Step)
    (hreg : step.op ∉ cfg.handlerOps) (hrel : step.op ∉ relevantOperators) :
    process_step cfg st step =
      { flush_pending cfg st with
        chunks := append_chunk (flush_pending cfg st).chunks step.raw } ∧
    (step.raw ≠ [] →
      ∃ pre, joinBytes ((process_step cfg st step).chunks) = pre ++ step.raw) ∧
    ∀ (handlers : String → Option (List PVal → ByteStr → List HItem))
      (operands : List PVal) (raw : ByteStr),
      handlers step.op = none →
      handle_operator handlers step.op operands raw = [.bytes raw] := by
  have hint : step.op ∉ interceptList cfg := by
    unfold interceptList
    rw [List.mem_append]
    rintro (hcase | hcase)
    · exact hreg hcase
    · by_cases hopt : cfg.optimizer.isSome
      · rw [if_pos hopt] at hcase
        exact hrel hcase
      · rw [if_neg hopt] at hcase
        simp at hcase
  have hsafe : is_safe_to_optimize step.op step.operands (interceptList cfg)
      = false := by
    unfold is_safe_to_optimize
    rw [if_pos hint]
  have hmain := process_step_not_safe cfg st step hsafe
  refine ⟨hmain, fun hraw => ?_, fun handlers operands raw hnone => ?_⟩
  · rw [hmain]
    exact append_chunk_join (flush_pending cfg st).chunks step.raw hraw
  · unfold handle_operator
    rw [hnone]

theorem spec_C7_witness :
    process_step
      { handlerOps := [], optimizer := some (fun l => l),
        serialize := fun _ => [], handler := fun _ _ _ => none }
      { pending := [], chunks := [] }
      { op := "re", operands := [], raw := [114, 101] } =
      { pending := [], chunks := [[114, 101]] } ∧
    handle_operator (fun _ => none) "re" [] [114, 101] =
      [.bytes [114, 101]] := by
  have h := spec_C7_pass_through_default
    { handlerOps := [], optimizer := some (fun l => l),
      serialize := fun _ => [], handler := fun _ _ _ => none }
    { pending := [], chunks := [] }
    { op := "re", operands := [], raw := [114, 101] }
    (by decide) (by decide)
  exact ⟨h.1, h.2.2 (fun _ => none) [] [114, 101] rfl⟩

/-- C8: for every operand sequence given to the overridden
show-text-with-spacing operator, the text-line matrix (text matrix combined
with the tracked line-matrix delta) is unchanged; with an active font the
text matrix's translation advances by the accumulated displacement
projected along its `(a, b)` basis vectors while the tracked delta is
compensated by exactly the negation of that advance; with no active font
the operator changes no state at all. -/
theorem spec_C8_TJ_preserves_line_matrix (seq : List TJItem)
    (ts : TJTextState) :
    lineMatrixOf (do_TJ seq ts) = lineMatrixOf ts ∧
    do_TJ seq { ts with font := none } = { ts with font := none } ∧
    ∀ fw : FontW,
      do_TJ seq { ts with font := some fw } =
        { ts with
          font := some fw
          matrix :=
            { ts.matrix with
              e := ts.matrix.e +
                tj_displacement fw ({ ts with font := some fw }) seq * ts.matrix.a
              f := ts.matrix.f +
                tj_displacement fw ({ ts with font := some fw }) seq * ts.matrix.b }
          linematrix := (ts.linematrix.1 -
              tj_displacement fw ({ ts with font := some fw }) seq * ts.matrix.a,
            ts.linematrix.2 -
              tj_displacement fw ({ ts with font := some fw }) seq * ts.matrix.b) } := by
  refine ⟨?_, rfl, fun fw => rfl⟩
  rcases hf : ts.font with _ | fw
  · simp [do_TJ, hf]
  · simp only [do_TJ, hf, set_matrices_for_kerning_block, lineMatrixOf]
    congr 1 <;> ring

/-- C10: `extract_text_position` returns the origin vector `[0, 0, 1]` for
a missing state and whenever the `tstate` or `ctm` entry is absent; and
when the list-form CTM is malformed (an index or type failure inside the
`try` block), it returns the fallback `[tx, ty, 1]` built from the text
matrix's translation components instead of raising. -/
theorem spec_C10_extract_text_position :
    (extract_text_position none = .ok [0, 0, 1]) ∧
    (∀ st : StateD, st.tstate = none →
      extract_text_position (some st) = .ok [0, 0, 1]) ∧
    (∀ st : StateD, st.ctm = none →
      extract_text_position (some st) = .ok [0, 0, 1]) ∧
    (∀ (st : StateD) (ts : TStateV) (l : List PVal) (tx ty : ℚ),
      st.tstate = some ts → st.ctm = some (.lst l) →
      pyFloatAt (ts.matrix.getD defaultTm) 4 = .ok tx →
      pyFloatAt (ts.matrix.getD defaultTm) 5 = .ok ty →
      (ctm_list_eval l tx ty = .error .indexError ∨
       ctm_list_eval l tx ty = .error .typeError) →
      extract_text_position (some st) = .ok [tx, ty, 1]) := by
  refine ⟨rfl, ?_, ?_, ?_⟩
  · intro st h
    rcases st with ⟨t, c⟩
    cases h
    cases c <;> rfl
  · intro st h
    rcases st with ⟨t, c⟩
    cases h
    cases t <;> rfl
  · intro st ts l tx ty ht hc htx hty herr
    rcases st with ⟨t, c⟩
    cases ht
    cases hc
    simp only [extract_text_position, htx, hty, pexc_bind_ok]
    rcases herr with h | h <;> simp only [h]

theorem spec_C10_witness :
    extract_text_position
      (some ⟨some ⟨some [PVal.flt 1, PVal.flt 0, PVal.flt 0, PVal.flt 1,
                          PVal.flt 7, PVal.flt 9]⟩,
             some (.lst [])⟩) = .ok [7, 9, 1] :=
  spec_C10_extract_text_position.2.2.2
    ⟨some ⟨some [PVal.flt 1, PVal.flt 0, PVal.flt 0, PVal.flt 1,
                 PVal.flt 7, PVal.flt 9]⟩, some (.lst [])⟩
    ⟨some [PVal.flt 1, PVal.flt 0, PVal.flt 0, PVal.flt 1,
           PVal.flt 7, PVal.flt 9]⟩
    [] 7 9 rfl rfl (by decide) (by decide) (Or.inl (by decide))

/-! ## Container Walker lemmas -/

theorem lookupDoc_mem_docIds {doc : Doc} {oid : ℕ} {d : XObjDesc}
    (h : lookupDoc doc oid = some d) : oid ∈ docIds doc := by
  unfold lookupDoc at h
  rcases hf : doc.find? (fun p => p.1 = oid) with _ | p
  · rw [hf] at h
    cases h
  · have hmem := List.mem_of_find?_eq_some hf
    have hp := List.find?_some hf
    simp only [decide_eq_true_eq] at hp
    unfold docIds
    rw [List.mem_toFinset]
    exact List.mem_map.mpr ⟨p, hmem, hp⟩

/-- Invariants of one walker run: the processed list has no duplicates, its
elements were unvisited on entry and are visited on exit, and the visited
set only grows. -/
theorem walkAux_spec (doc : Doc) :
    ∀ (g : ℕ) (e : List (String × ℕ)) (v : Finset ℕ),
      (walkAux doc g v e).1.Nodup ∧
      (∀ x ∈ (walkAux doc g v e).1, x ∉ v ∧ x ∈ (walkAux doc g v e).2) ∧
      v ⊆ (walkAux doc g v e).2 := by
  have key : ∀ (g : ℕ),
      (∀ (e : List (String × ℕ)) (v : Finset ℕ),
        (walkAux doc g v e).1.Nodup ∧
        (∀ x ∈ (walkAux doc g v e).1, x ∉ v ∧ x ∈ (walkAux doc g v e).2) ∧
        v ⊆ (walkAux doc g v e).2) := by
    intro g
    induction g with
    | zero =>
      intro e
      induction e with
      | nil => intro v; simp [walkAux]
      | cons p rest ih =>
        intro v
        rcases p with ⟨nm, oid⟩
        by_cases hv : oid ∈ v
        · simpa [walkAux, hv] using ih v
        · rcases hl : lookupDoc doc oid with _ | d
          · have h2 := ih (insert oid v)
            simp only [walkAux, if_neg hv, hl] at h2 ⊢
            exact ⟨h2.1, fun x hx => ⟨fun hxv => (h2.2.1 x hx).1 (Finset.mem_insert_of_mem hxv),
              (h2.2.1 x hx).2⟩, (Finset.subset_insert _ _).trans h2.2.2⟩
          · by_cases hf : d.subtype = "/Form"
            · simp only [walkAux, if_neg hv, hl, if_pos hf]
              exact ⟨List.nodup_nil, by simp, Finset.subset_insert _ _⟩
            · have h2 := ih (insert oid v)
              simp only [walkAux, if_neg hv, hl, if_neg hf] at h2 ⊢
              exact ⟨h2.1, fun x hx => ⟨fun hxv => (h2.2.1 x hx).1 (Finset.mem_insert_of_mem hxv),
                (h2.2.1 x hx).2⟩, (Finset.subset_insert _ _).trans h2.2.2⟩
    | succ g ihg =>
      intro e
      induction e with
      | nil => intro v; simp [walkAux]
      | cons p rest ih =>
        intro v
        rcases p with ⟨nm, oid⟩
        by_cases hv : oid ∈ v
        · simpa [walkAux, hv] using ih v
        · rcases hl : lookupDoc doc oid with _ | d
          · have h2 := ih (insert oid v)
            simp only [walkAux, if_neg hv, hl] at h2 ⊢
            exact ⟨h2.1, fun x hx => ⟨fun hxv => (h2.2.1 x hx).1 (Finset.mem_insert_of_mem hxv),
              (h2.2.1 x hx).2⟩, (Finset.subset_insert _ _).trans h2.2.2⟩
          · by_cases hf : d.subtype = "/Form"
            · have hsub := ihg d.children (insert oid v)
              have hrest := ih (walkAux doc g (insert oid v) d.children).2
              simp only [walkAux, if_neg hv, hl, if_pos hf] at hsub hrest ⊢
              obtain ⟨ndS, memS, subS⟩ := hsub
              obtain ⟨ndR, memR, subR⟩ := hrest
              have hins : insert oid v ⊆
                  (walkAux doc g (insert oid v) d.children).2 := subS
              refine ⟨?_, ?_, ?_⟩
              · refine List.Nodup.append (List.nodup_cons.mpr ⟨?_, ndS⟩) ndR ?_
                · intro hin
                  exact (memS oid hin).1 (Finset.mem_insert_self _ _)
                · intro a ha haR
                  rcases List.mem_cons.mp ha with rfl | haS
                  · exact (memR a haR).1 (hins (Finset.mem_insert_self _ _))
                  · exact (memR a haR).1 ((memS a haS).2)
              · intro x hx
                rcases List.mem_append.mp hx with hin | hinB
                · rcases List.mem_cons.mp hin with rfl | hinA
                  · exact ⟨hv, subR (hins (Finset.mem_insert_self _ _))⟩
                  · exact ⟨fun hxv => (memS x hinA).1 (Finset.mem_insert_of_mem hxv),
                      subR ((memS x hinA).2)⟩
                · exact ⟨fun hxv => (memR x hinB).1
                    (hins (Finset.mem_insert_of_mem hxv)), (memR x hinB).2⟩
              · exact ((Finset.subset_insert _ _).trans hins).trans subR
            · have h2 := ih (insert oid v)
              simp only [walkAux, if_neg hv, hl, if_neg hf] at h2 ⊢
              exact ⟨h2.1, fun x hx => ⟨fun hxv => (h2.2.1 x hx).1 (Finset.mem_insert_of_mem hxv),
                (h2.2.1 x hx).2⟩, (Finset.subset_insert _ _).trans h2.2.2⟩
  exact key

/-- Termination of the walker, expressed as stability of the fuel-indexed
embedding: any two recursion bounds dominating the number of unvisited
document objects produce the same result. -/
theorem walkAux_stable (doc : Doc) :
    ∀ (n : ℕ) (e : List (String × ℕ)) (v : Finset ℕ) (g h : ℕ),
      (docIds doc \ v).card ≤ n → (docIds doc \ v).card ≤ g →
      (docIds doc \ v).card ≤ h →
      walkAux doc g v e = walkAux doc h v e := by
  intro n
  induction n with
  | zero =>
    intro e
    induction e with
    | nil => intro v g h _ _ _; simp [walkAux]
    | cons p rest ih =>
      intro v g h hn hg hh
      rcases p with ⟨nm, oid⟩
      by_cases hv : oid ∈ v
      · simp only [walkAux, if_pos hv]
        exact ih v g h hn hg hh
      · have hb : (docIds doc \ insert oid v).card ≤ (docIds doc \ v).card :=
          Finset.card_le_card (Finset.sdiff_subset_sdiff (Finset.Subset.refl _)
            (Finset.subset_insert _ _))
        rcases hl : lookupDoc doc oid with _ | d
        · simp only [walkAux, if_neg hv, hl]
          exact ih (insert oid v) g h (hb.trans hn) (hb.trans hg) (hb.trans hh)
        · by_cases hf : d.subtype = "/Form"
          · have hdoc : oid ∈ docIds doc := lookupDoc_mem_docIds hl
            have hpos : 0 < (docIds doc \ v).card :=
              Finset.card_pos.mpr ⟨oid, Finset.mem_sdiff.mpr ⟨hdoc, hv⟩⟩
            omega
          · simp only [walkAux, if_neg hv, hl, if_neg hf]
            exact ih (insert oid v) g h (hb.trans hn) (hb.trans hg) (hb.trans hh)
  | succ n0 ihn =>
    intro e
    induction e with
    | nil => intro v g h _ _ _; simp [walkAux]
    | cons p rest ih =>
      intro v g h hn hg hh
      rcases p with ⟨nm, oid⟩
      by_cases hv : oid ∈ v
      · simp only [walkAux, if_pos hv]
        exact ih v g h hn hg hh
      · have hb : (docIds doc \ insert oid v).card ≤ (docIds doc \ v).card :=
          Finset.card_le_card (Finset.sdiff_subset_sdiff (Finset.Subset.refl _)
            (Finset.subset_insert _ _))
        rcases hl : lookupDoc doc oid with _ | d
        · simp only [walkAux, if_neg hv, hl]
          exact ih (insert oid v) g h (hb.trans hn) (hb.trans hg) (hb.trans hh)
        · by_cases hf : d.subtype = "/Form"
          · have hdoc : oid ∈ docIds doc := lookupDoc_mem_docIds hl
            have hmemd : oid ∈ docIds doc \ v :=
              Finset.mem_sdiff.mpr ⟨hdoc, hv⟩
            have hpos : 0 < (docIds doc \ v).card :=
              Finset.card_pos.mpr ⟨oid, hmemd⟩
            rcases g with _ | g0
            · omega
            rcases h with _ | h0
            · omega
            have herase : docIds doc \ insert oid v =
                (docIds doc \ v).erase oid := by
              ext a
              simp only [Finset.mem_sdiff, Finset.mem_insert, Finset.mem_erase]
              tauto
            have hcard : (docIds doc \ insert oid v).card + 1 =
                (docIds doc \ v).card := by
              rw [herase, Finset.card_erase_of_mem hmemd]
              omega
            have hbn : (docIds doc \ insert oid v).card ≤ n0 := by omega
            have hbg : (docIds doc \ insert oid v).card ≤ g0 := by omega
            have hbh : (docIds doc \ insert oid v).card ≤ h0 := by omega
            have hsubEq : walkAux doc g0 (insert oid v) d.children =
                walkAux doc h0 (insert oid v) d.children :=
              ihn d.children (insert oid v) g0 h0 hbn hbg hbh
            have hsubset : insert oid v ⊆
                (walkAux doc h0 (insert oid v) d.children).2 :=
              (walkAux_spec doc h0 d.children (insert oid v)).2.2
            have hbR : (docIds doc \
                (walkAux doc h0 (insert oid v) d.children).2).card ≤
                (docIds doc \ v).card :=
              Finset.card_le_card (Finset.sdiff_subset_sdiff
                (Finset.Subset.refl _)
                ((Finset.subset_insert _ _).trans hsubset))
            have hrestEq : walkAux doc (g0 + 1)
                (walkAux doc h0 (insert oid v) d.children).2 rest =
                walkAux doc (h0 + 1)
                  (walkAux doc h0 (insert oid v) d.children).2 rest :=
              ih (walkAux doc h0 (insert oid v) d.children).2 (g0 + 1) (h0 + 1)
                (hbR.trans hn) (hbR.trans hg) (hbR.trans hh)
            simp only [walkAux, if_neg hv, hl, if_pos hf]
            rw [hsubEq, hrestEq]
          · simp only [walkAux, if_neg hv, hl, if_neg hf]
            exact ih (insert oid v) g h (hb.trans hn) (hb.trans hg) (hb.trans hh)

/-- C9: the recursive Container Walker terminates on every resource graph —
its fuel-indexed embedding is stable under any recursion bound dominating
the number of unvisited objects — and within one top-level call each form
object is processed at most once (the processed-identity list has no
duplicates); on the malformed cyclic graph where form A references form B
and B references A, the walk from A terminates processing each of A and B
exactly once. -/
theorem spec_C9_container_walker (doc : Doc) (entries : List (String × ℕ)) :
    (∀ (visited : Finset ℕ) (g h : ℕ),
      (docIds doc \ visited).card ≤ g → (docIds doc \ visited).card ≤ h →
      walkAux doc g visited entries = walkAux doc h visited entries) ∧
    (process_child_resources doc entries).1.Nodup ∧
    (process_child_resources
        [(1, ⟨"/Form", [("B", 2)]⟩), (2, ⟨"/Form", [("A", 1)]⟩)]
        [("A", 1)]).1 = [1, 2] := by
  refine ⟨fun visited g h hg hh =>
    walkAux_stable doc ((docIds doc \ visited).card) entries visited g h
      le_rfl hg hh,
    (walkAux_spec doc (docIds doc).card entries ∅).1, ?_⟩
  have hcard : (docIds
      ([(1, ⟨"/Form", [("B", 2)]⟩), (2, ⟨"/Form", [("A", 1)]⟩)] : Doc)).card
      = 2 := by decide
  rw [process_child_resources, hcard]
  simp [walkAux, lookupDoc, List.find?]

theorem spec_C9_witness :
    walkAux [(1, ⟨"/Form", [("B", 2)]⟩), (2, ⟨"/Form", [("A", 1)]⟩)] 5 ∅
        [("A", 1)] =
      walkAux [(1, ⟨"/Form", [("B", 2)]⟩), (2, ⟨"/Form", [("A", 1)]⟩)] 2 ∅
        [("A", 1)] ∧
    (process_child_resources
        [(1, ⟨"/Form", [("B", 2)]⟩), (2, ⟨"/Form", [("A", 1)]⟩)]
        [("A", 1)]).1.Nodup := by
  have h := spec_C9_container_walker
    [(1, ⟨"/Form", [("B", 2)]⟩), (2, ⟨"/Form", [("A", 1)]⟩)] [("A", 1)]
  exact ⟨h.1 ∅ 5 2 (by decide) (by decide), h.2.1⟩

end PdfBeaver
